import Mathlib

/-!
Shallow embedding of the bounding-volume-hierarchy construction found in
`Projects/particle/mesh_query0.1/bounding_box_tree.h`.

Floating-point `double` values are modelled as exact rationals `ℚ`; the
3-component vector type `Vec3d` is modelled as `Fin 3 → ℚ`.  The mutable
index array manipulated in place by the construction is modelled as a
`List ℕ` that is threaded through the partition loop; the recursion on
`current_depth` (bounded by `max_depth`) is modelled by the decreasing
fuel value `max_depth - current_depth`.
-/

/-- Modelled from the spec: the 3-component vector type (`Vec3d`) of the
external AABB header `bounding_box.h`, which is not part of the visible
source; a vector is a map from the three axes to a rational coordinate. -/
abbrev Vec3 : Type := Fin 3 → ℚ

/-- Modelled from the spec: componentwise vector addition. -/
def vadd (v w : Vec3) : Vec3 := fun a => v a + w a

/-- Modelled from the spec: scalar multiplication of a vector. -/
def vscale (q : ℚ) (v : Vec3) : Vec3 := fun a => q * v a

/-- Modelled from the spec: an axis-aligned bounding box is a pair of
corner vectors (minimum corner `xmin`, maximum corner `xmax`). -/
structure BoundingBox where
  xmin : Vec3
  xmax : Vec3
deriving DecidableEq

/-- Modelled from the spec: the AABB containing exactly one point
(the `BoundingBox(Vec3d)` constructor used at line 91 of the source). -/
def BoundingBox.ofPoint (p : Vec3) : BoundingBox := ⟨p, p⟩

/-- Modelled from the spec: union-with-point (`include_point`),
componentwise min/max against the point. -/
def BoundingBox.include_point (b : BoundingBox) (p : Vec3) : BoundingBox :=
  ⟨fun a => min (b.xmin a) (p a), fun a => max (b.xmax a) (p a)⟩

/-- Modelled from the spec: union-with-box (`include_box`),
componentwise min/max of the two corner pairs. -/
def BoundingBox.include_box (b c : BoundingBox) : BoundingBox :=
  ⟨fun a => min (b.xmin a) (c.xmin a), fun a => max (b.xmax a) (c.xmax a)⟩

/-- Centroid of an input box: `0.5*(xmin+xmax)` (source line 56). -/
def BoundingBox.centroid (b : BoundingBox) : Vec3 :=
  vscale (1/2) (vadd b.xmin b.xmax)

/-- One node of the bounding box tree: a box, an array `index` of input-box
labels, and an array of children (source lines 22-26). -/
inductive BoundingBoxTree : Type where
  | mk (box : BoundingBox) (index : List ℕ) (children : List BoundingBoxTree)

def BoundingBoxTree.box : BoundingBoxTree → BoundingBox
  | .mk b _ _ => b

def BoundingBoxTree.index : BoundingBoxTree → List ℕ
  | .mk _ idx _ => idx

def BoundingBoxTree.children : BoundingBoxTree → List BoundingBoxTree
  | .mk _ _ cs => cs

/-- Bounding box of everything in a node: `box = input_box[local_index[0]]`
followed by `include_box` over the rest of the slice (source lines 79-81).
The `[]` case is unreachable (the source asserts `num_indices > 0`). -/
def computeBox (inp : ℕ → BoundingBox) : List ℕ → BoundingBox
  | [] => ⟨fun _ => 0, fun _ => 0⟩
  | h :: t => t.foldl (fun acc k => acc.include_box (inp k)) (inp h)

/-- Bounding box of the centroids of a slice (source lines 91-96). -/
def computeCentroidBox (cent : ℕ → Vec3) : List ℕ → BoundingBox
  | [] => ⟨fun _ => 0, fun _ => 0⟩
  | h :: t => t.foldl (fun acc k => acc.include_point (cent k)) (.ofPoint (cent h))

/-- Arithmetic mean of the centroids of a slice (source lines 92-97). -/
def computeMean (cent : ℕ → Vec3) : List ℕ → Vec3
  | [] => fun _ => 0
  | h :: t => vscale (1 / ((t.length + 1 : ℕ) : ℚ))
      (t.foldl (fun acc k => vadd acc (cent k)) (cent h))

/-- Extent of a box along one axis: `xmax[a] - xmin[a]`. -/
def extent (b : BoundingBox) (a : Fin 3) : ℚ := b.xmax a - b.xmin a

/-- Axis selection (source lines 106-111): start from axis 0 and scan axes
1, 2 in order, replacing the current choice only on strictly larger
centroid extent. -/
def selectAxis (b : BoundingBox) : Fin 3 :=
  let ax1 : Fin 3 := if extent b 0 < extent b 1 then 1 else 0
  if extent b ax1 < extent b 2 then 2 else ax1

/-- Split threshold (source lines 115-117): the mean of the centroids on
the chosen axis, replaced by the midpoint of the centroid extent when it
does not lie strictly inside the open extent interval. -/
def splitValue (cent : ℕ → Vec3) (l : List ℕ) (ax : Fin 3) : ℚ :=
  let cb := computeCentroidBox cent l
  let m := computeMean cent l ax
  if m ≤ cb.xmin ax ∨ cb.xmax ax ≤ m then (1/2) * (cb.xmin ax + cb.xmax ax) else m

/-- Exchange of two entries of the index array (`std::swap` at line 127). -/
def listSwap (l : List ℕ) (i j : ℕ) : List ℕ :=
  (l.set i (l.getD j 0)).set j (l.getD i 0)

/-- The forward scan of the partition (source lines 121-123): advance `i`
while it is in range and the indexed centroid coordinate is at most the
split value.  The first argument is fuel; `a.length` fuel always
suffices. -/
def findI (c : ℕ → ℚ) (s : ℚ) (a : List ℕ) : ℕ → ℕ → ℕ
  | 0, i => i
  | fuel + 1, i =>
    if i < a.length ∧ c (a.getD i 0) ≤ s then findI c s a fuel (i + 1) else i

/-- The backward scan of the partition (source lines 124-125): decrease `j`
while the indexed centroid coordinate exceeds the split value; `none`
models the C index `-1`.  The first argument is fuel; `j+1` fuel always
suffices. -/
def findJ (c : ℕ → ℚ) (s : ℚ) (a : List ℕ) : ℕ → ℕ → Option ℕ
  | 0, j => some j
  | fuel + 1, j =>
    if s < c (a.getD j 0) then
      match j with
      | 0 => none
      | j' + 1 => findJ c s a fuel j'
    else some j

/-- The quicksort-style in-place split of the indices (source lines
119-133): two converging scans that swap out-of-place entries until the
scan positions cross; returns the reordered array and the boundary `i`.
The first argument is fuel; `j+1` fuel always suffices. -/
def partitionLoop (c : ℕ → ℚ) (s : ℚ) : ℕ → List ℕ → ℕ → ℕ → List ℕ × ℕ
  | 0, a, i, _ => (a, i)
  | fuel + 1, a, i, j =>
    let i2 := findI c s a a.length i
    match findJ c s a (j + 1) j with
    | none => (a, i2)
    | some j2 =>
      if i2 < j2 then partitionLoop c s fuel (listSwap a i2 j2) (i2 + 1) (j2 - 1)
      else (a, i2)

/-- Entry point of the in-place partition: `i = 0`, `j = num_indices - 1`
(source line 119). -/
def hoarePartition (c : ℕ → ℚ) (s : ℚ) (l : List ℕ) : List ℕ × ℕ :=
  partitionLoop c s l.length l 0 (l.length - 1)

/-- Recursive constructor (source lines 67-150).  The fuel argument is
`max_depth - current_depth`, so fuel `0` is the `current_depth == max_depth`
base case; the slice of the shared index array is passed as a list. -/
def construct_recursively (inp : ℕ → BoundingBox) (cent : ℕ → Vec3)
    (boxes_per_leaf : ℕ) : ℕ → List ℕ → BoundingBoxTree
  | 0, idx => .mk (computeBox inp idx) idx []
  | fuel + 1, idx =>
    let box := computeBox inp idx
    if idx.length ≤ boxes_per_leaf then .mk box idx []
    else
      let cb := computeCentroidBox cent idx
      if cb.xmax = cb.xmin then .mk box idx []
      else
        let ax := selectAxis cb
        let s := splitValue cent idx ax
        let pr := hoarePartition (fun k => cent k ax) s idx
        .mk box []
          [construct_recursively inp cent boxes_per_leaf fuel (pr.1.take pr.2),
           construct_recursively inp cent boxes_per_leaf fuel (pr.1.drop pr.2)]

/-- Public entry point (source lines 42-64): identity permutation of the
labels `0..n-1`, precomputed centroids, then the recursive construction
over the whole range at depth 0. -/
def construct_from_leaf_boxes (n : ℕ) (inp : ℕ → BoundingBox)
    (max_depth : ℕ) (boxes_per_leaf : ℕ) : BoundingBoxTree :=
  construct_recursively inp (fun i => (inp i).centroid) boxes_per_leaf
    max_depth (List.range n)

mutual

/-- All nodes of a tree (the tree itself and, recursively, the nodes of
its children). -/
def BoundingBoxTree.nodes : BoundingBoxTree → List BoundingBoxTree
  | .mk b idx cs => .mk b idx cs :: nodesList cs

def nodesList : List BoundingBoxTree → List BoundingBoxTree
  | [] => []
  | t :: ts => t.nodes ++ nodesList ts

end

mutual

/-- All nodes of a tree paired with their depth below the root. -/
def BoundingBoxTree.nodesD : BoundingBoxTree → ℕ → List (BoundingBoxTree × ℕ)
  | .mk b idx cs, d => (.mk b idx cs, d) :: nodesDList cs (d + 1)

def nodesDList : List BoundingBoxTree → ℕ → List (BoundingBoxTree × ℕ)
  | [], _ => []
  | t :: ts, d => t.nodesD d ++ nodesDList ts d

end

mutual

/-- Concatenation of the `index` arrays of all leaf nodes (nodes with no
children) of a tree. -/
def BoundingBoxTree.leafIndices : BoundingBoxTree → List ℕ
  | .mk _ idx [] => idx
  | .mk _ _ (c :: cs) => leafIndicesList (c :: cs)

def leafIndicesList : List BoundingBoxTree → List ℕ
  | [] => []
  | t :: ts => t.leafIndices ++ leafIndicesList ts

end

/-! ### Basic lemmas about boxes -/

lemma BoundingBox.eq_of_corners {b c : BoundingBox}
    (h1 : b.xmin = c.xmin) (h2 : b.xmax = c.xmax) : b = c := by
  cases b; cases c; simp_all

lemma include_box_comm (b c : BoundingBox) :
    b.include_box c = c.include_box b := by
  apply BoundingBox.eq_of_corners <;> funext a <;>
    simp [BoundingBox.include_box, min_comm, max_comm]

lemma include_box_assoc (b c d : BoundingBox) :
    (b.include_box c).include_box d = b.include_box (c.include_box d) := by
  apply BoundingBox.eq_of_corners <;> funext a <;>
    simp [BoundingBox.include_box, min_assoc, max_assoc]

lemma include_box_self (b : BoundingBox) : b.include_box b = b := by
  apply BoundingBox.eq_of_corners <;> funext a <;>
    simp [BoundingBox.include_box]

/-- The folding step used by `computeBox`. -/
def boxUnion (inp : ℕ → BoundingBox) (b : BoundingBox) (l : List ℕ) : BoundingBox :=
  l.foldl (fun acc k => acc.include_box (inp k)) b

lemma computeBox_cons (inp : ℕ → BoundingBox) (h : ℕ) (t : List ℕ) :
    computeBox inp (h :: t) = boxUnion inp (inp h) t := rfl

lemma boxUnion_include (inp : ℕ → BoundingBox) (b c : BoundingBox) :
    ∀ l : List ℕ, boxUnion inp (b.include_box c) l = b.include_box (boxUnion inp c l)
  | [] => rfl
  | x :: t => by
    simp only [boxUnion, List.foldl_cons, include_box_assoc]
    exact boxUnion_include inp b (c.include_box (inp x)) t

lemma boxUnion_append (inp : ℕ → BoundingBox) (b : BoundingBox) (xs ys : List ℕ) :
    boxUnion inp b (xs ++ ys) = boxUnion inp (boxUnion inp b xs) ys := by
  simp [boxUnion, List.foldl_append]

lemma boxUnion_perm (inp : ℕ → BoundingBox) (b : BoundingBox) {l l' : List ℕ}
    (p : List.Perm l l') : boxUnion inp b l = boxUnion inp b l' := by
  apply p.foldl_eq' (fun x _ y _ z => ?_)
  simp only [include_box_assoc, include_box_comm (inp x) (inp y)]

lemma boxUnion_mem_absorb (inp : ℕ → BoundingBox) :
    ∀ (l : List ℕ) (b : BoundingBox) (x : ℕ), x ∈ l →
      boxUnion inp (b.include_box (inp x)) l = boxUnion inp b l
  | [], _, _, hx => absurd hx (List.not_mem_nil _)
  | y :: t, b, x, hx => by
    rcases List.mem_cons.1 hx with rfl | hxt
    · simp only [boxUnion, List.foldl_cons]
      rw [include_box_assoc, include_box_self]
    · simp only [boxUnion, List.foldl_cons]
      have hc : (b.include_box (inp x)).include_box (inp y)
          = (b.include_box (inp y)).include_box (inp x) := by
        rw [include_box_assoc, include_box_assoc, include_box_comm (inp x) (inp y)]
      rw [hc]
      exact boxUnion_mem_absorb inp t (b.include_box (inp y)) x hxt

lemma computeBox_head_absorb (inp : ℕ → BoundingBox) (h : ℕ) (t : List ℕ) :
    computeBox inp (h :: t) = boxUnion inp (inp h) (h :: t) := by
  simp only [computeBox_cons, boxUnion, List.foldl_cons, include_box_self]

lemma computeBox_perm (inp : ℕ → BoundingBox) {l l' : List ℕ}
    (p : List.Perm l l') (hne : l ≠ []) : computeBox inp l = computeBox inp l' := by
  rcases l with _ | ⟨h, t⟩
  · exact absurd rfl hne
  rcases l' with _ | ⟨h', t'⟩
  · exact absurd p.eq_nil (by simp)
  rw [computeBox_head_absorb, computeBox_head_absorb, boxUnion_perm inp _ p]
  have hmem : h ∈ h' :: t' := p.mem_iff.1 (List.mem_cons_self h t)
  show boxUnion inp (inp h) (h' :: t') = boxUnion inp (inp h') (h' :: t')
  simp only [boxUnion, List.foldl_cons]
  rcases List.mem_cons.1 hmem with rfl | hmt
  · rfl
  · show boxUnion inp ((inp h).include_box (inp h')) t'
        = boxUnion inp ((inp h').include_box (inp h')) t'
    rw [include_box_self, include_box_comm]
    exact boxUnion_mem_absorb inp t' (inp h') h hmt

lemma computeBox_append (inp : ℕ → BoundingBox) (xs ys : List ℕ)
    (hx : xs ≠ []) (hy : ys ≠ []) :
    computeBox inp (xs ++ ys) = (computeBox inp xs).include_box (computeBox inp ys) := by
  rcases xs with _ | ⟨h, t⟩
  · exact absurd rfl hx
  rcases ys with _ | ⟨h', t'⟩
  · exact absurd rfl hy
  rw [computeBox_cons, List.cons_append, computeBox_cons, boxUnion_append]
  show boxUnion inp (boxUnion inp (inp h) t) (h' :: t')
      = (boxUnion inp (inp h) t).include_box (computeBox inp (h' :: t'))
  simp only [boxUnion, List.foldl_cons, computeBox_cons]
  rw [show ∀ b : BoundingBox, b.include_box (inp h') =
      b.include_box (inp h') from fun _ => rfl]
  exact boxUnion_include inp (List.foldl (fun acc k => acc.include_box (inp k)) (inp h) t) (inp h') t'

/-! ### Lemmas about the centroid bounding box -/

/-- The folding step used by `computeCentroidBox`. -/
def pointBox (cent : ℕ → Vec3) (b : BoundingBox) (l : List ℕ) : BoundingBox :=
  l.foldl (fun acc k => acc.include_point (cent k)) b

lemma computeCentroidBox_cons (cent : ℕ → Vec3) (h : ℕ) (t : List ℕ) :
    computeCentroidBox cent (h :: t) = pointBox cent (.ofPoint (cent h)) t := rfl

lemma pointBox_wf (cent : ℕ → Vec3) :
    ∀ (l : List ℕ) (b : BoundingBox), (∀ a, b.xmin a ≤ b.xmax a) →
      ∀ a, (pointBox cent b l).xmin a ≤ (pointBox cent b l).xmax a
  | [], _, hb, a => hb a
  | x :: t, b, hb, a => by
    refine pointBox_wf cent t _ (fun a' => ?_) a
    simp only [BoundingBox.include_point]
    exact le_trans (min_le_left _ _) (le_trans (hb a') (le_max_left _ _))

lemma pointBox_xmin_attain (cent : ℕ → Vec3) :
    ∀ (l : List ℕ) (b : BoundingBox) (a : Fin 3),
      (pointBox cent b l).xmin a = b.xmin a ∨
        ∃ k ∈ l, (pointBox cent b l).xmin a = cent k a
  | [], _, _ => Or.inl rfl
  | x :: t, b, a => by
    rcases pointBox_xmin_attain cent t (b.include_point (cent x)) a with h | ⟨k, hk, h⟩
    · rcases min_choice (b.xmin a) (cent x a) with hm | hm
      · exact Or.inl (by rw [pointBox, List.foldl_cons] at *; rw [h]; exact hm)
      · refine Or.inr ⟨x, List.mem_cons_self x t, ?_⟩
        rw [pointBox, List.foldl_cons] at *; rw [h]; exact hm
    · exact Or.inr ⟨k, List.mem_cons_of_mem x hk, h⟩

lemma pointBox_xmax_attain (cent : ℕ → Vec3) :
    ∀ (l : List ℕ) (b : BoundingBox) (a : Fin 3),
      (pointBox cent b l).xmax a = b.xmax a ∨
        ∃ k ∈ l, (pointBox cent b l).xmax a = cent k a
  | [], _, _ => Or.inl rfl
  | x :: t, b, a => by
    rcases pointBox_xmax_attain cent t (b.include_point (cent x)) a with h | ⟨k, hk, h⟩
    · rcases max_choice (b.xmax a) (cent x a) with hm | hm
      · exact Or.inl (by rw [pointBox, List.foldl_cons] at *; rw [h]; exact hm)
      · refine Or.inr ⟨x, List.mem_cons_self x t, ?_⟩
        rw [pointBox, List.foldl_cons] at *; rw [h]; exact hm
    · exact Or.inr ⟨k, List.mem_cons_of_mem x hk, h⟩

lemma pointBox_xmin_le_base (cent : ℕ → Vec3) :
    ∀ (l : List ℕ) (b : BoundingBox) (a : Fin 3),
      (pointBox cent b l).xmin a ≤ b.xmin a
  | [], _, _ => le_refl _
  | x :: t, b, a =>
    le_trans (pointBox_xmin_le_base cent t (b.include_point (cent x)) a)
      (min_le_left _ _)

lemma pointBox_base_le_xmax (cent : ℕ → Vec3) :
    ∀ (l : List ℕ) (b : BoundingBox) (a : Fin 3),
      b.xmax a ≤ (pointBox cent b l).xmax a
  | [], _, _ => le_refl _
  | x :: t, b, a =>
    le_trans (le_max_left _ _)
      (pointBox_base_le_xmax cent t (b.include_point (cent x)) a)

lemma pointBox_xmin_le_mem (cent : ℕ → Vec3) :
    ∀ (l : List ℕ) (b : BoundingBox) (k : ℕ), k ∈ l → ∀ (a : Fin 3),
      (pointBox cent b l).xmin a ≤ cent k a
  | [], _, _, hk, _ => absurd hk (List.not_mem_nil _)
  | x :: t, b, k, hk, a => by
    rcases List.mem_cons.1 hk with rfl | hkt
    · refine le_trans (pointBox_xmin_le_base cent t _ a) ?_
      simp only [BoundingBox.include_point]
      exact min_le_right _ _
    · exact pointBox_xmin_le_mem cent t _ k hkt a

lemma pointBox_mem_le_xmax (cent : ℕ → Vec3) :
    ∀ (l : List ℕ) (b : BoundingBox) (k : ℕ), k ∈ l → ∀ (a : Fin 3),
      cent k a ≤ (pointBox cent b l).xmax a
  | [], _, _, hk, _ => absurd hk (List.not_mem_nil _)
  | x :: t, b, k, hk, a => by
    rcases List.mem_cons.1 hk with rfl | hkt
    · refine le_trans ?_ (pointBox_base_le_xmax cent t _ a)
      simp only [BoundingBox.include_point]
      exact le_max_right _ _
    · exact pointBox_mem_le_xmax cent t _ k hkt a

lemma ccb_wf (cent : ℕ → Vec3) (l : List ℕ) (hne : l ≠ []) (a : Fin 3) :
    (computeCentroidBox cent l).xmin a ≤ (computeCentroidBox cent l).xmax a := by
  rcases l with _ | ⟨h, t⟩
  · exact absurd rfl hne
  rw [computeCentroidBox_cons]
  exact pointBox_wf cent t _ (fun _ => le_refl _) a

lemma ccb_xmin_attain (cent : ℕ → Vec3) (l : List ℕ) (hne : l ≠ []) (a : Fin 3) :
    ∃ k ∈ l, (computeCentroidBox cent l).xmin a = cent k a := by
  rcases l with _ | ⟨h, t⟩
  · exact absurd rfl hne
  rw [computeCentroidBox_cons]
  rcases pointBox_xmin_attain cent t (.ofPoint (cent h)) a with hb | ⟨k, hk, hb⟩
  · exact ⟨h, List.mem_cons_self h t, hb⟩
  · exact ⟨k, List.mem_cons_of_mem h hk, hb⟩

lemma ccb_xmax_attain (cent : ℕ → Vec3) (l : List ℕ) (hne : l ≠ []) (a : Fin 3) :
    ∃ k ∈ l, (computeCentroidBox cent l).xmax a = cent k a := by
  rcases l with _ | ⟨h, t⟩
  · exact absurd rfl hne
  rw [computeCentroidBox_cons]
  rcases pointBox_xmax_attain cent t (.ofPoint (cent h)) a with hb | ⟨k, hk, hb⟩
  · exact ⟨h, List.mem_cons_self h t, hb⟩
  · exact ⟨k, List.mem_cons_of_mem h hk, hb⟩

lemma ccb_mem_bounds (cent : ℕ → Vec3) (l : List ℕ) (k : ℕ) (hk : k ∈ l) (a : Fin 3) :
    (computeCentroidBox cent l).xmin a ≤ cent k a ∧
      cent k a ≤ (computeCentroidBox cent l).xmax a := by
  rcases l with _ | ⟨h, t⟩
  · exact absurd hk (List.not_mem_nil _)
  rw [computeCentroidBox_cons]
  rcases List.mem_cons.1 hk with rfl | hkt
  · exact ⟨pointBox_xmin_le_base cent t _ a, pointBox_base_le_xmax cent t _ a⟩
  · exact ⟨pointBox_xmin_le_mem cent t _ k hkt a, pointBox_mem_le_xmax cent t _ k hkt a⟩

/-- If the centroid bounding box is degenerate, all centroids of the slice
coincide. -/
lemma all_centroids_eq_of_degenerate (cent : ℕ → Vec3) (l : List ℕ)
    (hdeg : (computeCentroidBox cent l).xmax = (computeCentroidBox cent l).xmin) :
    ∀ k ∈ l, ∀ k' ∈ l, cent k = cent k' := by
  intro k hk k' hk'
  funext a
  have h1 := ccb_mem_bounds cent l k hk a
  have h2 := ccb_mem_bounds cent l k' hk' a
  rw [hdeg] at h1 h2
  have e1 : cent k a = (computeCentroidBox cent l).xmin a := le_antisymm h1.2 h1.1
  have e2 : cent k' a = (computeCentroidBox cent l).xmin a := le_antisymm h2.2 h2.1
  rw [e1, e2]

/-! ### Axis selection and split value -/

lemma selectAxis_max (b : BoundingBox) (a : Fin 3) :
    extent b a ≤ extent b (selectAxis b) := by
  unfold selectAxis
  by_cases h1 : extent b 0 < extent b 1 <;>
    simp only [h1, if_true, if_false, reduceIte] <;>
    split <;> fin_cases a <;> simp_all <;> linarith

lemma selectAxis_first (b : BoundingBox) (a : Fin 3) (ha : a < selectAxis b) :
    extent b a < extent b (selectAxis b) := by
  revert ha
  unfold selectAxis
  by_cases h1 : extent b 0 < extent b 1 <;>
    simp only [h1, if_true, if_false, reduceIte] <;>
    split <;> fin_cases a <;> intro ha <;> simp_all <;> linarith

/-- On the selected axis a non-degenerate centroid box has positive extent. -/
lemma selectAxis_pos (cent : ℕ → Vec3) (l : List ℕ) (hne : l ≠ [])
    (hdeg : (computeCentroidBox cent l).xmax ≠ (computeCentroidBox cent l).xmin) :
    (computeCentroidBox cent l).xmin (selectAxis (computeCentroidBox cent l)) <
      (computeCentroidBox cent l).xmax (selectAxis (computeCentroidBox cent l)) := by
  set cb := computeCentroidBox cent l with hcb
  obtain ⟨a, ha⟩ := Function.ne_iff.1 hdeg
  have hlt : cb.xmin a < cb.xmax a := lt_of_le_of_ne (ccb_wf cent l hne a) (Ne.symm ha)
  have h1 : 0 < extent cb a := by simp only [extent]; linarith
  have h2 := selectAxis_max cb a
  have h3 := ccb_wf cent l hne (selectAxis cb)
  simp only [extent] at h1 h2
  linarith

/-- The split value lies strictly inside the open centroid-extent interval
on the selected axis. -/
lemma split_mem_open (cent : ℕ → Vec3) (l : List ℕ) (hne : l ≠ [])
    (hdeg : (computeCentroidBox cent l).xmax ≠ (computeCentroidBox cent l).xmin) :
    (computeCentroidBox cent l).xmin (selectAxis (computeCentroidBox cent l)) <
        splitValue cent l (selectAxis (computeCentroidBox cent l)) ∧
      splitValue cent l (selectAxis (computeCentroidBox cent l)) <
        (computeCentroidBox cent l).xmax (selectAxis (computeCentroidBox cent l)) := by
  have hpos := selectAxis_pos cent l hne hdeg
  set cb := computeCentroidBox cent l with hcb
  set ax := selectAxis cb with hax
  show cb.xmin ax < splitValue cent l ax ∧ splitValue cent l ax < cb.xmax ax
  rw [splitValue]
  simp only [← hcb, ← hax]
  by_cases hc : computeMean cent l ax ≤ cb.xmin ax ∨ cb.xmax ax ≤ computeMean cent l ax
  · simp only [hc, if_true, reduceIte]
    constructor <;> linarith
  · simp only [hc, if_false, reduceIte]
    push_neg at hc
    exact ⟨hc.1, hc.2⟩

/-! ### Lemmas about list access and the swap step -/

lemma getD_eq_getElem (l : List ℕ) (k : ℕ) (h : k < l.length) :
    l.getD k 0 = l[k] := by
  simp [List.getD_eq_getElem?_getD, List.getElem?_eq_getElem h]

lemma getD_set_self (l : List ℕ) (i x : ℕ) (h : i < l.length) :
    (l.set i x).getD i 0 = x := by
  simp [List.getD_eq_getElem?_getD, List.getElem?_set_self h]

lemma getD_set_ne (l : List ℕ) (i x k : ℕ) (h : i ≠ k) :
    (l.set i x).getD k 0 = l.getD k 0 := by
  simp [List.getD_eq_getElem?_getD, List.getElem?_set_ne h]

lemma length_listSwap (l : List ℕ) (i j : ℕ) :
    (listSwap l i j).length = l.length := by
  simp [listSwap]

lemma getD_listSwap_fst (l : List ℕ) (i j : ℕ) (hij : i ≠ j) (hi : i < l.length) :
    (listSwap l i j).getD i 0 = l.getD j 0 := by
  rw [listSwap, getD_set_ne _ _ _ _ (Ne.symm hij), getD_set_self _ _ _ hi]

lemma getD_listSwap_snd (l : List ℕ) (i j : ℕ) (hj : j < l.length) :
    (listSwap l i j).getD j 0 = l.getD i 0 := by
  rw [listSwap, getD_set_self]
  simpa using hj

lemma getD_listSwap_other (l : List ℕ) (i j k : ℕ) (hki : k ≠ i) (hkj : k ≠ j) :
    (listSwap l i j).getD k 0 = l.getD k 0 := by
  rw [listSwap, getD_set_ne _ _ _ _ (Ne.symm hkj), getD_set_ne _ _ _ _ (Ne.symm hki)]

lemma swap_cons_perm :
    ∀ (t : List ℕ) (m a : ℕ), m < t.length →
      List.Perm (t.getD m 0 :: t.set m a) (a :: t)
  | [], m, _, hm => absurd hm (by simp)
  | b :: u, 0, a, _ => by
    simpa using List.Perm.swap a b u
  | b :: u, m + 1, a, hm => by
    have hmu : m < u.length := by simpa using hm
    have h1 : List.Perm (u.getD m 0 :: b :: u.set m a) (b :: u.getD m 0 :: u.set m a) :=
      List.Perm.swap b (u.getD m 0) _
    have h2 : List.Perm (b :: u.getD m 0 :: u.set m a) (b :: a :: u) :=
      List.Perm.cons b (swap_cons_perm u m a hmu)
    have h3 : List.Perm (b :: a :: u) (a :: b :: u) := List.Perm.swap a b u
    simpa using (h1.trans h2).trans h3

lemma listSwap_perm :
    ∀ (i : ℕ) (l : List ℕ) (j : ℕ), i < j → j < l.length →
      List.Perm (listSwap l i j) l
  | 0, [], j, _, hj => absurd hj (by simp)
  | 0, a :: t, 0, hij, _ => absurd hij (by omega)
  | 0, a :: t, jj + 1, _, hj => by
    have hjt : jj < t.length := by simpa using hj
    have he : listSwap (a :: t) 0 (jj + 1) = t.getD jj 0 :: t.set jj a := by
      simp [listSwap]
    rw [he]
    exact swap_cons_perm t jj a hjt
  | ii + 1, [], j, _, hj => absurd hj (by simp)
  | ii + 1, a :: t, 0, hij, _ => absurd hij (by omega)
  | ii + 1, a :: t, jj + 1, hij, hj => by
    have he : listSwap (a :: t) (ii + 1) (jj + 1) = a :: listSwap t ii jj := by
      simp [listSwap]
    rw [he]
    exact List.Perm.cons a (listSwap_perm ii t jj (by omega) (by simpa using hj))

/-! ### Specification of the partition scans and loop -/

lemma findI_spec (c : ℕ → ℚ) (s : ℚ) (a : List ℕ) :
    ∀ (fuel i : ℕ), a.length - i ≤ fuel → i ≤ a.length →
      i ≤ findI c s a fuel i ∧ findI c s a fuel i ≤ a.length ∧
      (∀ k, i ≤ k → k < findI c s a fuel i → c (a.getD k 0) ≤ s) ∧
      (findI c s a fuel i < a.length → s < c (a.getD (findI c s a fuel i) 0)) := by
  intro fuel
  induction fuel with
  | zero =>
    intro i hfuel hi
    have hlen : i = a.length := by omega
    simp only [findI]
    exact ⟨le_refl _, hi, fun k hk1 hk2 => absurd (lt_of_le_of_lt hk1 hk2) (by omega),
      fun h => absurd h (by omega)⟩
  | succ fuel ih =>
    intro i hfuel hi
    simp only [findI]
    by_cases hcond : i < a.length ∧ c (a.getD i 0) ≤ s
    · rw [if_pos hcond]
      obtain ⟨h1, h2, h3, h4⟩ := ih (i + 1) (by omega) (by omega)
      refine ⟨by omega, h2, fun k hk1 hk2 => ?_, h4⟩
      rcases eq_or_lt_of_le hk1 with rfl | hk1'
      · exact hcond.2
      · exact h3 k (by omega) hk2
    · rw [if_neg hcond]
      refine ⟨le_refl _, hi, fun k hk1 hk2 => absurd (lt_of_le_of_lt hk1 hk2) (by omega),
        fun h => ?_⟩
      rw [Classical.not_and_iff_or_not_not] at hcond
      rcases hcond with h' | h'
      · exact absurd h h'
      · exact lt_of_not_le h'

lemma findJ_spec (c : ℕ → ℚ) (s : ℚ) (a : List ℕ) :
    ∀ (fuel j : ℕ), j + 1 ≤ fuel → j < a.length →
      (findJ c s a fuel j = none → ∀ k, k ≤ j → s < c (a.getD k 0)) ∧
      (∀ j2, findJ c s a fuel j = some j2 →
        j2 ≤ j ∧ c (a.getD j2 0) ≤ s ∧ ∀ k, j2 < k → k ≤ j → s < c (a.getD k 0)) := by
  intro fuel
  induction fuel with
  | zero => intro j hfuel _; omega
  | succ fuel ih =>
    intro j hfuel hj
    simp only [findJ]
    by_cases hcond : s < c (a.getD j 0)
    · simp only [hcond, if_true, reduceIte]
      match j with
      | 0 =>
        refine ⟨fun _ k hk => ?_, fun j2 h => by simp at h⟩
        have : k = 0 := by omega
        rw [this]; exact hcond
      | j' + 1 =>
        obtain ⟨hn, hs⟩ := ih j' (by omega) (by omega)
        refine ⟨fun h k hk => ?_, fun j2 h => ?_⟩
        · rcases Nat.lt_or_ge k (j' + 1) with hk' | hk'
          · exact hn h k (by omega)
          · have : k = j' + 1 := by omega
            rw [this]; exact hcond
        · obtain ⟨h1, h2, h3⟩ := hs j2 h
          refine ⟨by omega, h2, fun k hk1 hk2 => ?_⟩
          rcases Nat.lt_or_ge k (j' + 1) with hk' | hk'
          · exact h3 k hk1 (by omega)
          · have : k = j' + 1 := by omega
            rw [this]; exact hcond
    · simp only [hcond, if_false, reduceIte]
      refine ⟨fun h => by simp at h, fun j2 h => ?_⟩
      have : j2 = j := by simpa using h.symm
      subst this
      exact ⟨le_refl _, le_of_not_lt hcond, fun k hk1 hk2 => by omega⟩

lemma partitionLoop_spec (c : ℕ → ℚ) (s : ℚ) :
    ∀ (fuel : ℕ) (a : List ℕ) (i j : ℕ), j + 1 ≤ fuel → j < a.length → i ≤ a.length →
      (∀ k, k < i → c (a.getD k 0) ≤ s) →
      (∀ k, j < k → k < a.length → s < c (a.getD k 0)) →
      List.Perm (partitionLoop c s fuel a i j).1 a ∧
      (partitionLoop c s fuel a i j).2 ≤ a.length ∧
      (∀ k, k < (partitionLoop c s fuel a i j).2 →
        c ((partitionLoop c s fuel a i j).1.getD k 0) ≤ s) ∧
      (∀ k, (partitionLoop c s fuel a i j).2 ≤ k → k < a.length →
        s < c ((partitionLoop c s fuel a i j).1.getD k 0)) := by
  intro fuel
  induction fuel with
  | zero => intro a i j hfuel _ _ _ _; omega
  | succ fuel ih =>
    intro a i j hfuel hjlen hilen hinv1 hinv2
    obtain ⟨hii2, hi2len, hImid, hIend⟩ :=
      findI_spec c s a a.length i (by omega) hilen
    have hIlow : ∀ k, k < findI c s a a.length i → c (a.getD k 0) ≤ s := by
      intro k hk
      rcases Nat.lt_or_ge k i with hk' | hk'
      · exact hinv1 k hk'
      · exact hImid k hk' hk
    simp only [partitionLoop]
    rcases hJ : findJ c s a (j + 1) j with _ | j2
    · simp only [hJ]
      have hnone := (findJ_spec c s a (j + 1) j (by omega) hjlen).1 hJ
      refine ⟨List.Perm.refl a, hi2len, hIlow, fun k hk1 hk2 => ?_⟩
      rcases Nat.lt_or_ge j k with hk' | hk'
      · exact hinv2 k hk' hk2
      · exact hnone k hk'
    · simp only [hJ]
      obtain ⟨hj2j, hj2le, hJmid⟩ := (findJ_spec c s a (j + 1) j (by omega) hjlen).2 j2 hJ
      by_cases hlt : findI c s a a.length i < j2
      · rw [if_pos hlt]
        have hj2lt : j2 < a.length := by omega
        have hi2lt : findI c s a a.length i < a.length := by omega
        have ha2len : (listSwap a (findI c s a a.length i) j2).length = a.length :=
          length_listSwap a _ j2
        have hrec := ih (listSwap a (findI c s a a.length i) j2)
          (findI c s a a.length i + 1) (j2 - 1) (by omega) (by omega) (by omega)
          (fun k hk => ?_) (fun k hk1 hk2 => ?_)
        · obtain ⟨hp, hb, hlow, hhigh⟩ := hrec
          have hswap : List.Perm (listSwap a (findI c s a a.length i) j2) a :=
            listSwap_perm _ a j2 hlt hj2lt
          refine ⟨hp.trans hswap, by omega, hlow, fun k hk1 hk2 => hhigh k hk1 (by omega)⟩
        · -- entries below the advanced left scan position stay ≤ split
          rcases Nat.lt_or_ge k (findI c s a a.length i) with hk' | hk'
          · rw [getD_listSwap_other a _ j2 k (by omega) (by omega)]
            exact hIlow k hk'
          · have : k = findI c s a a.length i := by omega
            subst this
            rw [getD_listSwap_fst a _ j2 (by omega) hi2lt]
            exact hj2le
        · -- entries above the retreated right scan position stay > split
          rw [ha2len] at hk2
          rcases Nat.lt_or_ge j2 k with hk' | hk'
          · rw [getD_listSwap_other a _ j2 k (by omega) (by omega)]
            rcases Nat.lt_or_ge j k with hk'' | hk''
            · exact hinv2 k hk'' hk2
            · exact hJmid k hk' hk''
          · have : k = j2 := by omega
            subst this
            rw [getD_listSwap_snd a _ k hj2lt]
            exact hIend hi2lt
      · rw [if_neg hlt]
        refine ⟨List.Perm.refl a, hi2len, hIlow, fun k hk1 hk2 => ?_⟩
        rcases Nat.lt_or_ge j k with hk' | hk'
        · exact hinv2 k hk' hk2
        · rcases Nat.lt_or_ge j2 k with hk'' | hk''
          · exact hJmid k hk'' hk'
          · exfalso
            have hk1' : findI c s a a.length i ≤ k := hk1
            have hki2 : k = findI c s a a.length i := by omega
            have h1 := hIend (by omega)
            rw [← hki2] at h1
            have hkj2 : k = j2 := by omega
            rw [← hkj2] at hj2le
            linarith

lemma findJ_le (c : ℕ → ℚ) (s : ℚ) (a : List ℕ) :
    ∀ (fuel j j2 : ℕ), findJ c s a fuel j = some j2 → j2 ≤ j := by
  intro fuel
  induction fuel with
  | zero =>
    intro j j2 h
    simp only [findJ, Option.some.injEq] at h
    omega
  | succ fuel ih =>
    intro j j2 h
    simp only [findJ] at h
    by_cases hcond : s < c (a.getD j 0)
    · rw [if_pos hcond] at h
      match j, h with
      | 0, h => simp at h
      | j' + 1, h => exact le_trans (ih j' j2 h) (by omega)
    · rw [if_neg hcond] at h
      simp only [Option.some.injEq] at h
      omega

lemma partitionLoop_fuel_stable (c : ℕ → ℚ) (s : ℚ) :
    ∀ (f g : ℕ) (a : List ℕ) (i j : ℕ), j + 1 ≤ f → j + 1 ≤ g →
      partitionLoop c s f a i j = partitionLoop c s g a i j := by
  intro f
  induction f with
  | zero => intro g a i j hf _; omega
  | succ f ih =>
    intro g a i j hf hg
    match g with
    | 0 => omega
    | g + 1 =>
      simp only [partitionLoop]
      rcases hJ : findJ c s a (j + 1) j with _ | j2 <;> simp only [hJ]
      have hj2j : j2 ≤ j := findJ_le c s a (j + 1) j j2 hJ
      by_cases hlt : findI c s a a.length i < j2
      · rw [if_pos hlt, if_pos hlt]
        exact ih g _ _ _ (by omega) (by omega)
      · rw [if_neg hlt, if_neg hlt]

lemma hoarePartition_nil (c : ℕ → ℚ) (s : ℚ) : hoarePartition c s [] = ([], 0) := rfl

lemma hoarePartition_spec (c : ℕ → ℚ) (s : ℚ) (l : List ℕ) (hne : l ≠ []) :
    List.Perm (hoarePartition c s l).1 l ∧
      (hoarePartition c s l).2 ≤ l.length ∧
      (∀ k, k < (hoarePartition c s l).2 → c ((hoarePartition c s l).1.getD k 0) ≤ s) ∧
      (∀ k, (hoarePartition c s l).2 ≤ k → k < l.length →
        s < c ((hoarePartition c s l).1.getD k 0)) := by
  have hlen : 1 ≤ l.length := by
    rcases l with _ | ⟨h, t⟩
    · exact absurd rfl hne
    · simp
  exact partitionLoop_spec c s l.length l 0 (l.length - 1) (by omega) (by omega) (by omega)
    (fun k hk => absurd hk (by omega)) (fun k hk1 hk2 => absurd hk2 (by omega))

lemma partitionLoop_eq_hoarePartition (c : ℕ → ℚ) (s : ℚ) (l : List ℕ) (extra : ℕ) :
    partitionLoop c s (l.length + extra) l 0 (l.length - 1) = hoarePartition c s l := by
  rcases l with _ | ⟨h, t⟩
  · show partitionLoop c s (0 + extra) [] 0 0 = ([], 0)
    match extra with
    | 0 => rfl
    | e + 1 =>
      by_cases hc : s < c 0 <;> simp [partitionLoop, findI, findJ, hc]
  · have hlen : (h :: t).length = t.length + 1 := rfl
    exact partitionLoop_fuel_stable c s ((h :: t).length + extra) ((h :: t).length)
      (h :: t) 0 ((h :: t).length - 1) (by omega) (by omega)

lemma mem_getD_pos (l : List ℕ) (x : ℕ) (hx : x ∈ l) :
    ∃ m, m < l.length ∧ l.getD m 0 = x := by
  obtain ⟨m, hm, he⟩ := List.getElem_of_mem hx
  exact ⟨m, hm, by rw [getD_eq_getElem l m hm]; exact he⟩

lemma hoarePartition_pos (c : ℕ → ℚ) (s : ℚ) (l : List ℕ) (hne : l ≠ [])
    (x : ℕ) (hx : x ∈ l) (hxle : c x ≤ s)
    (y : ℕ) (hy : y ∈ l) (hys : s < c y) :
    0 < (hoarePartition c s l).2 ∧ (hoarePartition c s l).2 < l.length := by
  obtain ⟨hp, hb, hlow, hhigh⟩ := hoarePartition_spec c s l hne
  have hlen : (hoarePartition c s l).1.length = l.length := hp.length_eq
  obtain ⟨mx, hmx, hex⟩ := mem_getD_pos _ x (hp.mem_iff.2 hx)
  obtain ⟨my, hmy, hey⟩ := mem_getD_pos _ y (hp.mem_iff.2 hy)
  constructor
  · by_contra h0
    push_neg at h0
    have := hhigh mx (by omega) (by omega)
    rw [hex] at this
    linarith
  · by_contra h1
    push_neg at h1
    have := hlow my (by omega)
    rw [hey] at this
    linarith

/-! ### The split step of the construction -/

/-- The axis, split value and partition computed in the split branch of
`construct_recursively` (source lines 106-137), bundled. -/
def splitParts (cent : ℕ → Vec3) (idx : List ℕ) : List ℕ × ℕ :=
  hoarePartition (fun k => cent k (selectAxis (computeCentroidBox cent idx)))
    (splitValue cent idx (selectAxis (computeCentroidBox cent idx))) idx

/-- Both sides of a split are strictly smaller than the whole slice. -/
lemma splitParts_pos (cent : ℕ → Vec3) (idx : List ℕ) (hne : idx ≠ [])
    (hdeg : (computeCentroidBox cent idx).xmax ≠ (computeCentroidBox cent idx).xmin) :
    0 < (splitParts cent idx).2 ∧ (splitParts cent idx).2 < idx.length := by
  obtain ⟨hs1, hs2⟩ := split_mem_open cent idx hne hdeg
  obtain ⟨kx, hkx, hex⟩ :=
    ccb_xmin_attain cent idx hne (selectAxis (computeCentroidBox cent idx))
  obtain ⟨ky, hky, hey⟩ :=
    ccb_xmax_attain cent idx hne (selectAxis (computeCentroidBox cent idx))
  refine hoarePartition_pos _ _ idx hne kx hkx ?_ ky hky ?_
  · rw [hex] at hs1
    exact le_of_lt hs1
  · rw [hey] at hs2
    exact hs2

lemma splitParts_perm (cent : ℕ → Vec3) (idx : List ℕ) (hne : idx ≠ []) :
    List.Perm (splitParts cent idx).1 idx :=
  (hoarePartition_spec _ _ idx hne).1

/-! ### Branch equations of the construction -/

lemma construct_zero (inp : ℕ → BoundingBox) (cent : ℕ → Vec3) (bpl : ℕ) (idx : List ℕ) :
    construct_recursively inp cent bpl 0 idx = .mk (computeBox inp idx) idx [] := rfl

lemma construct_leaf_small (inp : ℕ → BoundingBox) (cent : ℕ → Vec3) (bpl fuel : ℕ)
    (idx : List ℕ) (h : idx.length ≤ bpl) :
    construct_recursively inp cent bpl (fuel + 1) idx
      = .mk (computeBox inp idx) idx [] := by
  simp [construct_recursively, h]

lemma construct_leaf_deg (inp : ℕ → BoundingBox) (cent : ℕ → Vec3) (bpl fuel : ℕ)
    (idx : List ℕ) (h1 : ¬ idx.length ≤ bpl)
    (h2 : (computeCentroidBox cent idx).xmax = (computeCentroidBox cent idx).xmin) :
    construct_recursively inp cent bpl (fuel + 1) idx
      = .mk (computeBox inp idx) idx [] := by
  simp [construct_recursively, h1, h2]

lemma construct_split (inp : ℕ → BoundingBox) (cent : ℕ → Vec3) (bpl fuel : ℕ)
    (idx : List ℕ) (h1 : ¬ idx.length ≤ bpl)
    (h2 : (computeCentroidBox cent idx).xmax ≠ (computeCentroidBox cent idx).xmin) :
    construct_recursively inp cent bpl (fuel + 1) idx
      = .mk (computeBox inp idx) []
          [construct_recursively inp cent bpl fuel
             ((splitParts cent idx).1.take (splitParts cent idx).2),
           construct_recursively inp cent bpl fuel
             ((splitParts cent idx).1.drop (splitParts cent idx).2)] := by
  simp [construct_recursively, h1, h2, splitParts]

/-! ### Equations for node lists, leaf index lists and accessors -/

lemma box_mk (b : BoundingBox) (idx : List ℕ) (cs : List BoundingBoxTree) :
    (BoundingBoxTree.mk b idx cs).box = b := rfl

lemma index_mk (b : BoundingBox) (idx : List ℕ) (cs : List BoundingBoxTree) :
    (BoundingBoxTree.mk b idx cs).index = idx := rfl

lemma children_mk (b : BoundingBox) (idx : List ℕ) (cs : List BoundingBoxTree) :
    (BoundingBoxTree.mk b idx cs).children = cs := rfl

lemma mem_nodes_leaf (t' : BoundingBoxTree) (b : BoundingBox) (idx : List ℕ) :
    t' ∈ (BoundingBoxTree.mk b idx []).nodes ↔ t' = .mk b idx [] := by
  simp [BoundingBoxTree.nodes, nodesList]

lemma mem_nodes_two (t' L R : BoundingBoxTree) (b : BoundingBox) (idx : List ℕ) :
    t' ∈ (BoundingBoxTree.mk b idx [L, R]).nodes ↔
      t' = .mk b idx [L, R] ∨ t' ∈ L.nodes ∨ t' ∈ R.nodes := by
  simp [BoundingBoxTree.nodes, nodesList]

lemma nodesD_leaf (b : BoundingBox) (idx : List ℕ) (d : ℕ) :
    (BoundingBoxTree.mk b idx []).nodesD d = [(.mk b idx [], d)] := by
  simp [BoundingBoxTree.nodesD, nodesDList]

lemma mem_nodesD_two (td : BoundingBoxTree × ℕ) (L R : BoundingBoxTree)
    (b : BoundingBox) (idx : List ℕ) (d : ℕ) :
    td ∈ (BoundingBoxTree.mk b idx [L, R]).nodesD d ↔
      td = (.mk b idx [L, R], d) ∨ td ∈ L.nodesD (d + 1) ∨ td ∈ R.nodesD (d + 1) := by
  simp [BoundingBoxTree.nodesD, nodesDList]

lemma leafIndices_leaf (b : BoundingBox) (idx : List ℕ) :
    (BoundingBoxTree.mk b idx []).leafIndices = idx := rfl

lemma leafIndices_two (b : BoundingBox) (idx : List ℕ) (L R : BoundingBoxTree) :
    (BoundingBoxTree.mk b idx [L, R]).leafIndices = L.leafIndices ++ R.leafIndices := by
  simp [BoundingBoxTree.leafIndices, leafIndicesList]

/-! ### Coverage of the leaf index arrays -/

lemma leafIndices_construct (inp : ℕ → BoundingBox) (cent : ℕ → Vec3) (bpl : ℕ) :
    ∀ (fuel : ℕ) (idx : List ℕ),
      List.Perm (construct_recursively inp cent bpl fuel idx).leafIndices idx := by
  intro fuel
  induction fuel with
  | zero => intro idx; rw [construct_zero, leafIndices_leaf]
  | succ fuel ih =>
    intro idx
    by_cases h1 : idx.length ≤ bpl
    · rw [construct_leaf_small inp cent bpl fuel idx h1, leafIndices_leaf]
    · have hne : idx ≠ [] := by
        intro h
        subst h
        simp at h1
      by_cases h2 : (computeCentroidBox cent idx).xmax = (computeCentroidBox cent idx).xmin
      · rw [construct_leaf_deg inp cent bpl fuel idx h1 h2, leafIndices_leaf]
      · rw [construct_split inp cent bpl fuel idx h1 h2, leafIndices_two]
        have happ := (ih ((splitParts cent idx).1.take (splitParts cent idx).2)).append
          (ih ((splitParts cent idx).1.drop (splitParts cent idx).2))
        rw [List.take_append_drop] at happ
        exact happ.trans (splitParts_perm cent idx hne)

/-! ### Structural lemmas about constructed trees -/

lemma box_construct (inp : ℕ → BoundingBox) (cent : ℕ → Vec3) (bpl : ℕ) :
    ∀ (fuel : ℕ) (idx : List ℕ),
      (construct_recursively inp cent bpl fuel idx).box = computeBox inp idx := by
  intro fuel idx
  match fuel with
  | 0 => rw [construct_zero, box_mk]
  | fuel + 1 =>
    by_cases h1 : idx.length ≤ bpl
    · rw [construct_leaf_small inp cent bpl fuel idx h1, box_mk]
    · by_cases h2 : (computeCentroidBox cent idx).xmax = (computeCentroidBox cent idx).xmin
      · rw [construct_leaf_deg inp cent bpl fuel idx h1 h2, box_mk]
      · rw [construct_split inp cent bpl fuel idx h1 h2, box_mk]

lemma splitParts_len (cent : ℕ → Vec3) (idx : List ℕ) (hne : idx ≠ []) :
    (splitParts cent idx).1.length = idx.length :=
  (splitParts_perm cent idx hne).length_eq

lemma splitParts_take_ne_nil (cent : ℕ → Vec3) (idx : List ℕ) (hne : idx ≠ [])
    (hdeg : (computeCentroidBox cent idx).xmax ≠ (computeCentroidBox cent idx).xmin) :
    (splitParts cent idx).1.take (splitParts cent idx).2 ≠ [] := by
  obtain ⟨hpos, hlt⟩ := splitParts_pos cent idx hne hdeg
  have hlen := splitParts_len cent idx hne
  apply List.length_pos.mp
  rw [List.length_take]
  omega

lemma splitParts_drop_ne_nil (cent : ℕ → Vec3) (idx : List ℕ) (hne : idx ≠ [])
    (hdeg : (computeCentroidBox cent idx).xmax ≠ (computeCentroidBox cent idx).xmin) :
    (splitParts cent idx).1.drop (splitParts cent idx).2 ≠ [] := by
  obtain ⟨hpos, hlt⟩ := splitParts_pos cent idx hne hdeg
  have hlen := splitParts_len cent idx hne
  apply List.length_pos.mp
  rw [List.length_drop]
  omega

lemma nodes_construct_shape (inp : ℕ → BoundingBox) (cent : ℕ → Vec3) (bpl : ℕ) :
    ∀ (fuel : ℕ) (idx : List ℕ) (t' : BoundingBoxTree),
      t' ∈ (construct_recursively inp cent bpl fuel idx).nodes →
      t'.children.length = 0 ∨ t'.children.length = 2 := by
  intro fuel
  induction fuel with
  | zero =>
    intro idx t' ht'
    rw [construct_zero, mem_nodes_leaf] at ht'
    subst ht'
    exact Or.inl rfl
  | succ fuel ih =>
    intro idx t' ht'
    by_cases h1 : idx.length ≤ bpl
    · rw [construct_leaf_small inp cent bpl fuel idx h1, mem_nodes_leaf] at ht'
      subst ht'
      exact Or.inl rfl
    · by_cases h2 : (computeCentroidBox cent idx).xmax = (computeCentroidBox cent idx).xmin
      · rw [construct_leaf_deg inp cent bpl fuel idx h1 h2, mem_nodes_leaf] at ht'
        subst ht'
        exact Or.inl rfl
      · rw [construct_split inp cent bpl fuel idx h1 h2, mem_nodes_two] at ht'
        rcases ht' with rfl | h | h
        · exact Or.inr rfl
        · exact ih _ t' h
        · exact ih _ t' h

lemma nodes_construct_index (inp : ℕ → BoundingBox) (cent : ℕ → Vec3) (bpl : ℕ) :
    ∀ (fuel : ℕ) (idx : List ℕ), idx ≠ [] →
      ∀ t' ∈ (construct_recursively inp cent bpl fuel idx).nodes,
        (t'.children = [] → t'.index ≠ []) ∧ (t'.children ≠ [] → t'.index = []) := by
  intro fuel
  induction fuel with
  | zero =>
    intro idx hne t' ht'
    rw [construct_zero, mem_nodes_leaf] at ht'
    subst ht'
    exact ⟨fun _ => hne, fun h => absurd rfl h⟩
  | succ fuel ih =>
    intro idx hne t' ht'
    by_cases h1 : idx.length ≤ bpl
    · rw [construct_leaf_small inp cent bpl fuel idx h1, mem_nodes_leaf] at ht'
      subst ht'
      exact ⟨fun _ => hne, fun h => absurd rfl h⟩
    · by_cases h2 : (computeCentroidBox cent idx).xmax = (computeCentroidBox cent idx).xmin
      · rw [construct_leaf_deg inp cent bpl fuel idx h1 h2, mem_nodes_leaf] at ht'
        subst ht'
        exact ⟨fun _ => hne, fun h => absurd rfl h⟩
      · rw [construct_split inp cent bpl fuel idx h1 h2, mem_nodes_two] at ht'
        rcases ht' with rfl | h | h
        · exact ⟨fun h => by rw [children_mk] at h; simp at h, fun _ => rfl⟩
        · exact ih _ (splitParts_take_ne_nil cent idx hne h2) t' h
        · exact ih _ (splitParts_drop_ne_nil cent idx hne h2) t' h

lemma nodesD_construct (inp : ℕ → BoundingBox) (cent : ℕ → Vec3) (bpl : ℕ) :
    ∀ (fuel : ℕ) (idx : List ℕ) (d : ℕ) (td : BoundingBoxTree × ℕ),
      td ∈ (construct_recursively inp cent bpl fuel idx).nodesD d →
      td.2 ≤ d + fuel ∧
      (td.1.children = [] →
        td.1.index.length ≤ bpl ∨ td.2 = d + fuel ∨
        (∀ k ∈ td.1.index, ∀ k' ∈ td.1.index, cent k = cent k')) := by
  intro fuel
  induction fuel with
  | zero =>
    intro idx d td htd
    rw [construct_zero, nodesD_leaf] at htd
    simp only [List.mem_singleton] at htd
    subst htd
    exact ⟨by omega, fun _ => Or.inr (Or.inl (by omega))⟩
  | succ fuel ih =>
    intro idx d td htd
    by_cases h1 : idx.length ≤ bpl
    · rw [construct_leaf_small inp cent bpl fuel idx h1, nodesD_leaf] at htd
      simp only [List.mem_singleton] at htd
      subst htd
      exact ⟨by omega, fun _ => Or.inl h1⟩
    · by_cases h2 : (computeCentroidBox cent idx).xmax = (computeCentroidBox cent idx).xmin
      · rw [construct_leaf_deg inp cent bpl fuel idx h1 h2, nodesD_leaf] at htd
        simp only [List.mem_singleton] at htd
        subst htd
        exact ⟨by omega, fun _ => Or.inr (Or.inr (all_centroids_eq_of_degenerate cent idx h2))⟩
      · rw [construct_split inp cent bpl fuel idx h1 h2, mem_nodesD_two] at htd
        rcases htd with rfl | h | h
        · exact ⟨by omega, fun h => by simp [children_mk] at h⟩
        · obtain ⟨ha, hb⟩ := ih _ (d + 1) td h
          exact ⟨by omega, fun hc => by
            rcases hb hc with h' | h' | h'
            · exact Or.inl h'
            · exact Or.inr (Or.inl (by omega))
            · exact Or.inr (Or.inr h')⟩
        · obtain ⟨ha, hb⟩ := ih _ (d + 1) td h
          exact ⟨by omega, fun hc => by
            rcases hb hc with h' | h' | h'
            · exact Or.inl h'
            · exact Or.inr (Or.inl (by omega))
            · exact Or.inr (Or.inr h')⟩

lemma leafIndices_len_construct (inp : ℕ → BoundingBox) (cent : ℕ → Vec3)
    (bpl fuel : ℕ) (idx : List ℕ) :
    (construct_recursively inp cent bpl fuel idx).leafIndices.length = idx.length :=
  (leafIndices_construct inp cent bpl fuel idx).length_eq

lemma nodes_construct_decrease (inp : ℕ → BoundingBox) (cent : ℕ → Vec3) (bpl : ℕ) :
    ∀ (fuel : ℕ) (idx : List ℕ),
      ∀ t' ∈ (construct_recursively inp cent bpl fuel idx).nodes,
        ∀ ch ∈ t'.children, ch.leafIndices.length < t'.leafIndices.length := by
  intro fuel
  induction fuel with
  | zero =>
    intro idx t' ht' ch hch
    rw [construct_zero, mem_nodes_leaf] at ht'
    subst ht'
    rw [children_mk] at hch
    simp at hch
  | succ fuel ih =>
    intro idx t' ht' ch hch
    by_cases h1 : idx.length ≤ bpl
    · rw [construct_leaf_small inp cent bpl fuel idx h1, mem_nodes_leaf] at ht'
      subst ht'
      rw [children_mk] at hch
      simp at hch
    · have hne : idx ≠ [] := by
        intro h
        subst h
        simp at h1
      by_cases h2 : (computeCentroidBox cent idx).xmax = (computeCentroidBox cent idx).xmin
      · rw [construct_leaf_deg inp cent bpl fuel idx h1 h2, mem_nodes_leaf] at ht'
        subst ht'
        rw [children_mk] at hch
        simp at hch
      · rw [construct_split inp cent bpl fuel idx h1 h2, mem_nodes_two] at ht'
        rcases ht' with rfl | h | h
        · rw [children_mk] at hch
          have hLpos : 0 < ((splitParts cent idx).1.take (splitParts cent idx).2).length :=
            List.length_pos.mpr (splitParts_take_ne_nil cent idx hne h2)
          have hRpos : 0 < ((splitParts cent idx).1.drop (splitParts cent idx).2).length :=
            List.length_pos.mpr (splitParts_drop_ne_nil cent idx hne h2)
          rw [leafIndices_two, List.length_append,
            leafIndices_len_construct, leafIndices_len_construct]
          rcases List.mem_pair.mp hch with rfl | rfl <;>
            rw [leafIndices_len_construct] <;> omega
        · exact ih _ t' h ch hch
        · exact ih _ t' h ch hch

/-! ### Box invariant of constructed trees -/

lemma nodes_construct_box (inp : ℕ → BoundingBox) (cent : ℕ → Vec3) (bpl : ℕ) :
    ∀ (fuel : ℕ) (idx : List ℕ), idx ≠ [] →
      ∀ t' ∈ (construct_recursively inp cent bpl fuel idx).nodes,
        t'.box = computeBox inp t'.leafIndices ∧
        (∀ L R, t'.children = [L, R] → t'.box = (L.box).include_box (R.box)) := by
  intro fuel
  induction fuel with
  | zero =>
    intro idx hne t' ht'
    rw [construct_zero, mem_nodes_leaf] at ht'
    subst ht'
    refine ⟨by rw [box_mk, leafIndices_leaf], fun L R hLR => ?_⟩
    rw [children_mk] at hLR
    simp at hLR
  | succ fuel ih =>
    intro idx hne t' ht'
    by_cases h1 : idx.length ≤ bpl
    · rw [construct_leaf_small inp cent bpl fuel idx h1, mem_nodes_leaf] at ht'
      subst ht'
      refine ⟨by rw [box_mk, leafIndices_leaf], fun L R hLR => ?_⟩
      rw [children_mk] at hLR
      simp at hLR
    · by_cases h2 : (computeCentroidBox cent idx).xmax = (computeCentroidBox cent idx).xmin
      · rw [construct_leaf_deg inp cent bpl fuel idx h1 h2, mem_nodes_leaf] at ht'
        subst ht'
        refine ⟨by rw [box_mk, leafIndices_leaf], fun L R hLR => ?_⟩
        rw [children_mk] at hLR
        simp at hLR
      · rw [construct_split inp cent bpl fuel idx h1 h2, mem_nodes_two] at ht'
        have htake := splitParts_take_ne_nil cent idx hne h2
        have hdrop := splitParts_drop_ne_nil cent idx hne h2
        rcases ht' with rfl | h | h
        · constructor
          · rw [box_mk, leafIndices_two]
            have happ := (leafIndices_construct inp cent bpl fuel
                ((splitParts cent idx).1.take (splitParts cent idx).2)).append
              (leafIndices_construct inp cent bpl fuel
                ((splitParts cent idx).1.drop (splitParts cent idx).2))
            rw [List.take_append_drop] at happ
            have hperm := happ.trans (splitParts_perm cent idx hne)
            exact computeBox_perm inp hperm.symm hne
          · intro L R hLR
            rw [children_mk] at hLR
            simp only [List.cons.injEq, and_true] at hLR
            obtain ⟨hL, hR⟩ := hLR
            subst hL
            subst hR
            rw [box_mk, box_construct, box_construct]
            have hsp : computeBox inp idx = computeBox inp (splitParts cent idx).1 :=
              computeBox_perm inp (splitParts_perm cent idx hne).symm hne
            rw [hsp]
            conv_lhs => rw [← List.take_append_drop (splitParts cent idx).2
              (splitParts cent idx).1]
            exact computeBox_append inp _ _ htake hdrop
        · exact ih _ htake t' h
        · exact ih _ hdrop t' h

/-! ### Identical-input degeneracy -/

lemma include_point_ofPoint_self (p : Vec3) :
    (BoundingBox.ofPoint p).include_point p = BoundingBox.ofPoint p := by
  apply BoundingBox.eq_of_corners <;> funext a <;>
    simp [BoundingBox.ofPoint, BoundingBox.include_point]

lemma pointBox_const (c0 : Vec3) :
    ∀ (t : List ℕ), pointBox (fun _ => c0) (.ofPoint c0) t = .ofPoint c0
  | [] => rfl
  | x :: t => by
    show pointBox (fun _ => c0) ((BoundingBox.ofPoint c0).include_point c0) t
        = BoundingBox.ofPoint c0
    rw [include_point_ofPoint_self]
    exact pointBox_const c0 t

lemma ccb_const (c0 : Vec3) (idx : List ℕ) (hne : idx ≠ []) :
    computeCentroidBox (fun _ => c0) idx = .ofPoint c0 := by
  rcases idx with _ | ⟨h, t⟩
  · exact absurd rfl hne
  · rw [computeCentroidBox_cons]
    exact pointBox_const c0 t

lemma boxUnion_const (b : BoundingBox) :
    ∀ (t : List ℕ), boxUnion (fun _ => b) b t = b
  | [] => rfl
  | x :: t => by
    show boxUnion (fun _ => b) (b.include_box b) t = b
    rw [include_box_self]
    exact boxUnion_const b t

lemma computeBox_const (b : BoundingBox) (idx : List ℕ) (hne : idx ≠ []) :
    computeBox (fun _ => b) idx = b := by
  rcases idx with _ | ⟨h, t⟩
  · exact absurd rfl hne
  · rw [computeBox_cons]
    exact boxUnion_const b t

lemma construct_const (b : BoundingBox) (c0 : Vec3) (bpl : ℕ) :
    ∀ (fuel : ℕ) (idx : List ℕ), idx ≠ [] →
      construct_recursively (fun _ => b) (fun _ => c0) bpl fuel idx = .mk b idx [] := by
  intro fuel idx hne
  match fuel with
  | 0 => rw [construct_zero, computeBox_const b idx hne]
  | fuel + 1 =>
    by_cases h1 : idx.length ≤ bpl
    · rw [construct_leaf_small _ _ _ fuel idx h1, computeBox_const b idx hne]
    · have h2 : (computeCentroidBox (fun _ => c0) idx).xmax
          = (computeCentroidBox (fun _ => c0) idx).xmin := by
        rw [ccb_const c0 idx hne]
        rfl
      rw [construct_leaf_deg _ _ _ fuel idx h1 h2, computeBox_const b idx hne]

/-! ### Claim theorems -/

/-- C1: for every valid input (`n ≥ 1`, a box per identifier, `boxes_per_leaf ≥ 1`)
the concatenation of the `index` arrays of all leaf nodes of the tree built by
`construct_from_leaf_boxes` is a permutation of `0..n-1`: every input identifier
appears in exactly one leaf, with no duplication and no omission. -/
theorem C1_leaf_coverage (n : ℕ) (inp : ℕ → BoundingBox) (md bpl : ℕ)
    (hn : 1 ≤ n) (hbpl : 1 ≤ bpl) :
    List.Perm (construct_from_leaf_boxes n inp md bpl).leafIndices (List.range n) :=
  leafIndices_construct inp _ bpl md (List.range n)

theorem C1_leaf_coverage_witness :
    1 ≤ 1 ∧ 1 ≤ 1 ∧
      List.Perm
        (construct_from_leaf_boxes 1 (fun _ => BoundingBox.ofPoint (fun _ => 0)) 30 1).leafIndices
        (List.range 1) :=
  ⟨le_refl 1, le_refl 1,
    C1_leaf_coverage 1 (fun _ => BoundingBox.ofPoint (fun _ => 0)) 30 1 (le_refl 1) (le_refl 1)⟩

/-- C3: the in-place two-pointer partition permutes the slice (same multiset
before and after), puts every identifier whose centroid coordinate on the
chosen axis is at most the split value at positions `[0, i)` and every
identifier whose coordinate exceeds the split value at positions
`[i, count)`, where `i` is the returned boundary — the same boundary at which
`construct_recursively` cuts the slice into the two child slices. -/
theorem C3_partition_correct (cent : ℕ → Vec3) (ax : Fin 3) (s : ℚ) (l : List ℕ)
    (hne : l ≠ []) :
    List.Perm (hoarePartition (fun k => cent k ax) s l).1 l ∧
      (hoarePartition (fun k => cent k ax) s l).2 ≤ l.length ∧
      (∀ k, k < (hoarePartition (fun k => cent k ax) s l).2 →
        cent ((hoarePartition (fun k => cent k ax) s l).1.getD k 0) ax ≤ s) ∧
      (∀ k, (hoarePartition (fun k => cent k ax) s l).2 ≤ k → k < l.length →
        s < cent ((hoarePartition (fun k => cent k ax) s l).1.getD k 0) ax) :=
  hoarePartition_spec (fun k => cent k ax) s l hne

theorem C3_partition_correct_witness :
    (([0, 1] : List ℕ) ≠ []) ∧
      (List.Perm (hoarePartition (fun k => (fun k' (_ : Fin 3) => (k' : ℚ)) k 0) (1/2) [0, 1]).1
          [0, 1] ∧
        (hoarePartition (fun k => (fun k' (_ : Fin 3) => (k' : ℚ)) k 0) (1/2) [0, 1]).2 ≤
          ([0, 1] : List ℕ).length ∧
        (∀ k, k < (hoarePartition (fun k => (fun k' (_ : Fin 3) => (k' : ℚ)) k 0) (1/2) [0, 1]).2 →
          (fun k' (_ : Fin 3) => (k' : ℚ))
            ((hoarePartition (fun k => (fun k' (_ : Fin 3) => (k' : ℚ)) k 0) (1/2) [0, 1]).1.getD k 0)
            0 ≤ 1/2) ∧
        (∀ k, (hoarePartition (fun k => (fun k' (_ : Fin 3) => (k' : ℚ)) k 0) (1/2) [0, 1]).2 ≤ k →
          k < ([0, 1] : List ℕ).length →
          1/2 < (fun k' (_ : Fin 3) => (k' : ℚ))
            ((hoarePartition (fun k => (fun k' (_ : Fin 3) => (k' : ℚ)) k 0) (1/2) [0, 1]).1.getD k 0)
            0)) :=
  ⟨by simp, C3_partition_correct (fun k' (_ : Fin 3) => (k' : ℚ)) 0 (1/2) [0, 1] (by simp)⟩

/-- C4: every node's `box` equals the union of the input boxes of the leaf
identifiers of its subtree (hence contains every descendant's box), and an
internal node's box equals the union of its two children's boxes. -/
theorem C4_box_invariant (n : ℕ) (inp : ℕ → BoundingBox) (md bpl : ℕ)
    (hn : 1 ≤ n) (hbpl : 1 ≤ bpl) :
    ∀ t' ∈ (construct_from_leaf_boxes n inp md bpl).nodes,
      t'.box = computeBox inp t'.leafIndices ∧
      (∀ L R, t'.children = [L, R] → t'.box = (L.box).include_box (R.box)) := by
  intro t' ht'
  have hne : List.range n ≠ [] := by
    simp only [ne_eq, List.range_eq_nil]
    omega
  exact nodes_construct_box inp _ bpl md (List.range n) hne t' ht'

theorem C4_box_invariant_witness :
    1 ≤ 1 ∧ 1 ≤ 1 ∧
      ∀ t' ∈ (construct_from_leaf_boxes 1 (fun _ => BoundingBox.ofPoint (fun _ => 0)) 30 1).nodes,
        t'.box = computeBox (fun _ => BoundingBox.ofPoint (fun _ => 0)) t'.leafIndices ∧
        (∀ L R, t'.children = [L, R] → t'.box = (L.box).include_box (R.box)) :=
  ⟨le_refl 1, le_refl 1,
    C4_box_invariant 1 (fun _ => BoundingBox.ofPoint (fun _ => 0)) 30 1 (le_refl 1) (le_refl 1)⟩

/-- C6: when all `n` input boxes are identical the construction returns a
single leaf holding all `n` identifiers in order, regardless of `max_depth`
and `boxes_per_leaf` (the degenerate-centroid or leaf test fires at the
root). -/
theorem C6_identical_boxes (b : BoundingBox) (n md bpl : ℕ) (hn : 1 ≤ n) :
    construct_from_leaf_boxes n (fun _ => b) md bpl
      = .mk b (List.range n) [] := by
  have hne : List.range n ≠ [] := by
    simp only [ne_eq, List.range_eq_nil]
    omega
  exact construct_const b b.centroid bpl md (List.range n) hne

theorem C6_identical_boxes_witness :
    1 ≤ 2 ∧
      construct_from_leaf_boxes 2 (fun _ => BoundingBox.ofPoint (fun _ => 0)) 30 1
        = .mk (BoundingBox.ofPoint (fun _ => 0)) (List.range 2) [] :=
  ⟨by omega, C6_identical_boxes (BoundingBox.ofPoint (fun _ => 0)) 2 30 1 (by omega)⟩

/-- C7: every node of a constructed tree has either zero children (leaf) or
exactly two children (internal); no node has exactly one child. -/
theorem C7_binary_shape (n : ℕ) (inp : ℕ → BoundingBox) (md bpl : ℕ) :
    ∀ t' ∈ (construct_from_leaf_boxes n inp md bpl).nodes,
      t'.children.length = 0 ∨ t'.children.length = 2 :=
  fun t' ht' => nodes_construct_shape inp _ bpl md (List.range n) t' ht'

/-- C9: the selected split axis is the first axis in scan order 0, 1, 2 whose
centroid extent is maximal: its extent is at least that of every axis, and
every earlier axis has strictly smaller extent (a later axis with merely
equal extent does not replace it). -/
theorem C9_axis_selection (b : BoundingBox) :
    (∀ a : Fin 3, extent b a ≤ extent b (selectAxis b)) ∧
    (∀ a : Fin 3, a < selectAxis b → extent b a < extent b (selectAxis b)) :=
  ⟨selectAxis_max b, fun a ha => selectAxis_first b a ha⟩

/-- C10: in a constructed tree every leaf (node with no children) has a
non-empty `index` array and every internal node (with children) has an empty
`index` array; no node carries both children and indices. -/
theorem C10_index_placement (n : ℕ) (inp : ℕ → BoundingBox) (md bpl : ℕ)
    (hn : 1 ≤ n) :
    ∀ t' ∈ (construct_from_leaf_boxes n inp md bpl).nodes,
      (t'.children = [] → t'.index ≠ []) ∧ (t'.children ≠ [] → t'.index = []) := by
  intro t' ht'
  have hne : List.range n ≠ [] := by
    simp only [ne_eq, List.range_eq_nil]
    omega
  exact nodes_construct_index inp _ bpl md (List.range n) hne t' ht'

theorem C10_index_placement_witness :
    1 ≤ 1 ∧
      ∀ t' ∈ (construct_from_leaf_boxes 1 (fun _ => BoundingBox.ofPoint (fun _ => 0)) 30 1).nodes,
        (t'.children = [] → t'.index ≠ []) ∧ (t'.children ≠ [] → t'.index = []) :=
  ⟨le_refl 1,
    C10_index_placement 1 (fun _ => BoundingBox.ofPoint (fun _ => 0)) 30 1 (le_refl 1)⟩

/-- C8: construction terminates on its precondition domain: the depth of
every node is bounded by `max_depth`, each split strictly decreases the
slice size handed to either child, and the inner partition loop reaches its
result within `count` iterations (extra fuel does not change the result,
which is the stabilisation statement for the two-pointer loop). -/
theorem C8_termination (n : ℕ) (inp : ℕ → BoundingBox) (md bpl : ℕ)
    (hn : 1 ≤ n) (hbpl : 1 ≤ bpl) :
    (∀ td ∈ (construct_from_leaf_boxes n inp md bpl).nodesD 0, td.2 ≤ md) ∧
    (∀ t' ∈ (construct_from_leaf_boxes n inp md bpl).nodes,
      ∀ ch ∈ t'.children, ch.leafIndices.length < t'.leafIndices.length) ∧
    (∀ (c : ℕ → ℚ) (s : ℚ) (l : List ℕ) (extra : ℕ),
      partitionLoop c s (l.length + extra) l 0 (l.length - 1) = hoarePartition c s l) := by
  refine ⟨fun td htd => ?_,
    fun t' ht' ch hch => nodes_construct_decrease inp _ bpl md _ t' ht' ch hch,
    fun c s l extra => partitionLoop_eq_hoarePartition c s l extra⟩
  have h := (nodesD_construct inp (fun i => (inp i).centroid) bpl md (List.range n) 0 td htd).1
  omega

theorem C8_termination_witness :
    1 ≤ 1 ∧ 1 ≤ 1 ∧
      ((∀ td ∈ (construct_from_leaf_boxes 1 (fun _ => BoundingBox.ofPoint (fun _ => 0)) 30 1).nodesD 0,
          td.2 ≤ 30) ∧
        (∀ t' ∈ (construct_from_leaf_boxes 1 (fun _ => BoundingBox.ofPoint (fun _ => 0)) 30 1).nodes,
          ∀ ch ∈ t'.children, ch.leafIndices.length < t'.leafIndices.length) ∧
        (∀ (c : ℕ → ℚ) (s : ℚ) (l : List ℕ) (extra : ℕ),
          partitionLoop c s (l.length + extra) l 0 (l.length - 1) = hoarePartition c s l)) :=
  ⟨le_refl 1, le_refl 1,
    C8_termination 1 (fun _ => BoundingBox.ofPoint (fun _ => 0)) 30 1 (le_refl 1) (le_refl 1)⟩

/-- C2: whenever a split is attempted (non-empty slice whose centroid
bounding box is non-degenerate), the split value lies strictly inside the
open interval between the centroid minimum and maximum on the selected axis
(mean, or midpoint fallback), and consequently the partition boundary `i`
satisfies `0 < i < count`, so both recursive child calls receive a non-empty
slice and the slice-non-empty assertion cannot fire. -/
theorem C2_split_inside (cent : ℕ → Vec3) (idx : List ℕ)
    (hne : idx ≠ [])
    (hdeg : (computeCentroidBox cent idx).xmax ≠ (computeCentroidBox cent idx).xmin) :
    (computeCentroidBox cent idx).xmin (selectAxis (computeCentroidBox cent idx)) <
        splitValue cent idx (selectAxis (computeCentroidBox cent idx)) ∧
      splitValue cent idx (selectAxis (computeCentroidBox cent idx)) <
        (computeCentroidBox cent idx).xmax (selectAxis (computeCentroidBox cent idx)) ∧
      0 < (splitParts cent idx).2 ∧ (splitParts cent idx).2 < idx.length := by
  obtain ⟨h1, h2⟩ := split_mem_open cent idx hne hdeg
  obtain ⟨h3, h4⟩ := splitParts_pos cent idx hne hdeg
  exact ⟨h1, h2, h3, h4⟩

theorem C2_split_inside_witness :
    ((([0, 1] : List ℕ) ≠ []) ∧
      (computeCentroidBox (fun k' (_ : Fin 3) => (k' : ℚ)) [0, 1]).xmax ≠
        (computeCentroidBox (fun k' (_ : Fin 3) => (k' : ℚ)) [0, 1]).xmin) ∧
    ((computeCentroidBox (fun k' (_ : Fin 3) => (k' : ℚ)) [0, 1]).xmin
        (selectAxis (computeCentroidBox (fun k' (_ : Fin 3) => (k' : ℚ)) [0, 1])) <
        splitValue (fun k' (_ : Fin 3) => (k' : ℚ)) [0, 1]
          (selectAxis (computeCentroidBox (fun k' (_ : Fin 3) => (k' : ℚ)) [0, 1])) ∧
      splitValue (fun k' (_ : Fin 3) => (k' : ℚ)) [0, 1]
          (selectAxis (computeCentroidBox (fun k' (_ : Fin 3) => (k' : ℚ)) [0, 1])) <
        (computeCentroidBox (fun k' (_ : Fin 3) => (k' : ℚ)) [0, 1]).xmax
          (selectAxis (computeCentroidBox (fun k' (_ : Fin 3) => (k' : ℚ)) [0, 1])) ∧
      0 < (splitParts (fun k' (_ : Fin 3) => (k' : ℚ)) [0, 1]).2 ∧
      (splitParts (fun k' (_ : Fin 3) => (k' : ℚ)) [0, 1]).2 < ([0, 1] : List ℕ).length) := by
  have hdeg : (computeCentroidBox (fun k' (_ : Fin 3) => (k' : ℚ)) [0, 1]).xmax ≠
      (computeCentroidBox (fun k' (_ : Fin 3) => (k' : ℚ)) [0, 1]).xmin := by
    intro h
    have h0 := congrFun h 0
    simp [computeCentroidBox, BoundingBox.ofPoint, BoundingBox.include_point] at h0
  exact ⟨⟨by simp, hdeg⟩,
    C2_split_inside (fun k' (_ : Fin 3) => (k' : ℚ)) [0, 1] (by simp) hdeg⟩

/-- C5 counterexample: with two identical input boxes, `boxes_per_leaf = 1`
and `max_depth = 30`, the root is a degenerate-centroid leaf that carries
2 > 1 identifiers at depth 0 ≠ 30, refuting the claim that every leaf has
`count ≤ boxes_per_leaf` or sits at depth exactly `max_depth`. -/
theorem C5_depth_claim_counterexample :
    ¬ (∀ td ∈ (construct_from_leaf_boxes 2
          (fun _ => BoundingBox.ofPoint (fun _ => (0 : ℚ))) 30 1).nodesD 0,
        td.2 ≤ 30 ∧ (td.1.children = [] → td.1.index.length ≤ 1 ∨ td.2 = 30)) := by
  have hT : construct_from_leaf_boxes 2
      (fun _ => BoundingBox.ofPoint (fun _ => (0 : ℚ))) 30 1
      = .mk (BoundingBox.ofPoint (fun _ => (0 : ℚ))) (List.range 2) [] :=
    construct_const (BoundingBox.ofPoint (fun _ => (0 : ℚ)))
      (BoundingBox.ofPoint (fun _ => (0 : ℚ))).centroid 1 30 (List.range 2) (by decide)
  intro hall
  have hmem : ((BoundingBoxTree.mk (BoundingBox.ofPoint (fun _ => (0 : ℚ)))
      (List.range 2) [] : BoundingBoxTree), (0 : ℕ)) ∈
      (construct_from_leaf_boxes 2
        (fun _ => BoundingBox.ofPoint (fun _ => (0 : ℚ))) 30 1).nodesD 0 := by
    rw [hT, nodesD_leaf]
    simp
  have h := (hall _ hmem).2 rfl
  rcases h with h | h
  · simp [index_mk] at h
  · simp at h

/-- C5 (amended): no node's depth from the root exceeds `max_depth`, and
every leaf either holds `count ≤ boxes_per_leaf` identifiers, or lies at
exactly depth `max_depth`, or is a degenerate-centroid leaf (the centroids
of all its identifiers coincide). -/
theorem C5_depth_bound_amended (n : ℕ) (inp : ℕ → BoundingBox) (md bpl : ℕ)
    (hn : 1 ≤ n) (hbpl : 1 ≤ bpl) :
    ∀ td ∈ (construct_from_leaf_boxes n inp md bpl).nodesD 0,
      td.2 ≤ md ∧
      (td.1.children = [] →
        td.1.index.length ≤ bpl ∨ td.2 = md ∨
        (∀ k ∈ td.1.index, ∀ k' ∈ td.1.index, (inp k).centroid = (inp k').centroid)) := by
  intro td htd
  have h := nodesD_construct inp (fun i => (inp i).centroid) bpl md (List.range n) 0 td htd
  simpa using h

theorem C5_depth_bound_amended_witness :
    1 ≤ 2 ∧ 1 ≤ 1 ∧
      ∀ td ∈ (construct_from_leaf_boxes 2
          (fun _ => BoundingBox.ofPoint (fun _ => (0 : ℚ))) 30 1).nodesD 0,
        td.2 ≤ 30 ∧
        (td.1.children = [] →
          td.1.index.length ≤ 1 ∨ td.2 = 30 ∨
          (∀ k ∈ td.1.index, ∀ k' ∈ td.1.index,
            ((fun _ => BoundingBox.ofPoint (fun _ => (0 : ℚ))) k).centroid
              = ((fun _ => BoundingBox.ofPoint (fun _ => (0 : ℚ))) k').centroid)) :=
  ⟨by omega, le_refl 1,
    C5_depth_bound_amended 2 (fun _ => BoundingBox.ofPoint (fun _ => (0 : ℚ))) 30 1
      (by omega) (le_refl 1)⟩

theorem C7_binary_shape_witness :
    ((BoundingBoxTree.mk (BoundingBox.ofPoint (fun _ => (0 : ℚ))) (List.range 1) []) ∈
        (construct_from_leaf_boxes 1
          (fun _ => BoundingBox.ofPoint (fun _ => (0 : ℚ))) 30 1).nodes) ∧
      ((BoundingBoxTree.mk (BoundingBox.ofPoint (fun _ => (0 : ℚ)))
          (List.range 1) []).children.length = 0 ∨
        (BoundingBoxTree.mk (BoundingBox.ofPoint (fun _ => (0 : ℚ)))
          (List.range 1) []).children.length = 2) := by
  have hT : construct_from_leaf_boxes 1
      (fun _ => BoundingBox.ofPoint (fun _ => (0 : ℚ))) 30 1
      = .mk (BoundingBox.ofPoint (fun _ => (0 : ℚ))) (List.range 1) [] :=
    construct_const (BoundingBox.ofPoint (fun _ => (0 : ℚ)))
      (BoundingBox.ofPoint (fun _ => (0 : ℚ))).centroid 1 30 (List.range 1) (by decide)
  have hmem : (BoundingBoxTree.mk (BoundingBox.ofPoint (fun _ => (0 : ℚ)))
      (List.range 1) []) ∈
      (construct_from_leaf_boxes 1
        (fun _ => BoundingBox.ofPoint (fun _ => (0 : ℚ))) 30 1).nodes := by
    rw [hT, mem_nodes_leaf]
  exact ⟨hmem,
    C7_binary_shape 1 (fun _ => BoundingBox.ofPoint (fun _ => (0 : ℚ))) 30 1 _ hmem⟩
